import Mathlib

/-!
Verification of the parse-and-deduplicate pipeline of the Talawanda
enews feed repository.  The definitions below are shallow embeddings of
the Python functions in `parser.py` and `newsletter_feed/main.py`:
Python strings are Lean `String`s (Python `len`/slicing count code
points, matching `List Char` operations on `String.data`), Python
`datetime` values are `Option Nat` (only ordering and null-ness
matter), Python dicts whose keys are fixed become structures, and the
SHA-256 hex digest used as a content-hash fallback is an abstract
parameter `digest : String → String` (only its determinism is used).
-/

namespace Enews

/-- Python `\s` whitespace for ASCII text: space, tab, newline,
carriage return, vertical tab, form feed. -/
def isPySpace (c : Char) : Bool :=
  c = ' ' || c = '\t' || c = '\n' || c = '\r' || c.toNat = 11 || c.toNat = 12

/-- Python `str.strip()` on the character list. -/
def pyStripL (l : List Char) : List Char :=
  ((l.dropWhile isPySpace).reverse.dropWhile isPySpace).reverse

/-- Python `str.strip()`. -/
def pyStrip (s : String) : String := ⟨pyStripL s.data⟩

/-- Collapse each maximal run of spaces to a single space; used to model
`re.sub(r'\s+', ' ', s)` after whitespace chars are mapped to `' '`. -/
def squeezeSpaces : List Char → List Char
  | [] => []
  | [c] => [c]
  | c :: d :: rest =>
    if c = ' ' && d = ' ' then squeezeSpaces (d :: rest)
    else c :: squeezeSpaces (d :: rest)

/-- `re.sub(r'\s+', ' ', title).strip()` from `clean_title`. -/
def collapseWS (s : String) : String :=
  pyStrip ⟨squeezeSpaces (s.data.map (fun c => if isPySpace c then ' ' else c))⟩

/-- Word splitter worker: `cur` holds the reversed characters of the
word in progress. -/
def pyWordsAux (cur : List Char) : List Char → List (List Char)
  | [] => if cur = [] then [] else [cur.reverse]
  | c :: cs =>
    if isPySpace c then
      if cur = [] then pyWordsAux [] cs else cur.reverse :: pyWordsAux [] cs
    else pyWordsAux (c :: cur) cs

/-- Python `str.split()` (split on whitespace runs, no empty words),
on character lists. -/
def pyWordsL (l : List Char) : List (List Char) := pyWordsAux [] l

/-- Python `title.split()`. -/
def pyWords (s : String) : List String := (pyWordsL s.data).map String.mk

/-- Python `sep.join(parts)`. -/
def joinSep (sep : String) : List String → String
  | [] => ""
  | [w] => w
  | w :: ws => w ++ sep ++ joinSep sep ws

/-- Python `len(s)` (code points). -/
def pyLen (s : String) : Nat := s.data.length

/-- Python `s[:n]`. -/
def pyTake (s : String) (n : Nat) : String := ⟨s.data.take n⟩

/-- The part of `l` strictly before its last space; the whole list when
it has no space.  Models Python `s.rsplit(' ', 1)[0]`. -/
def beforeLastSpaceL (l : List Char) : List Char :=
  if ' ' ∈ l then ((l.reverse.dropWhile (fun c => c ≠ ' ')).drop 1).reverse
  else l

/-- Python `s.rsplit(' ', 1)[0]`. -/
def beforeLastSpace (s : String) : String := ⟨beforeLastSpaceL s.data⟩

/-- The self-duplication step of `clean_title` (`parser.py`
lines 116-122): split into words; when the word count is even and the
two halves joined by single spaces are textually identical, keep just
the first half. -/
def selfDedupe (title : String) : String :=
  let words := pyWords title
  if words.length % 2 = 0 then
    let mid := words.length / 2
    let first_half := joinSep " " (words.take mid)
    let second_half := joinSep " " (words.drop mid)
    if first_half = second_half then first_half else title
  else title

/-- The length-cap step of `clean_title` (`parser.py` lines 124-126):
`if len(title) > 100: title = title[:100].rsplit(' ', 1)[0] + '...'`. -/
def capLength (title : String) : String :=
  if 100 < pyLen title then beforeLastSpace (pyTake title 100) ++ "..."
  else title

/-- `clean_title` from `parser.py`: empty in, empty out; otherwise
whitespace collapse, then self-duplication removal, then length cap. -/
def clean_title (title : String) : String :=
  if title = "" then ""
  else capLength (selfDedupe (collapseWS title))

/-- Substring test helper: `pat` occurs at the head of `hay`. -/
def headMatch : List Char → List Char → Bool
  | [], _ => true
  | _ :: _, [] => false
  | p :: ps, h :: hs => p = h && headMatch ps hs

/-- `pat` occurs somewhere in `hay` (Python `pat in hay` for strings;
the empty pattern always matches). -/
def hasSub : List Char → List Char → Bool
  | [], pat => pat.isEmpty
  | h :: hs, pat => headMatch pat (h :: hs) || hasSub hs pat

/-- Python `pat in s` for strings. -/
def pyContains (s pat : String) : Bool := hasSub s.data pat.data

/-- Python `str.lower()` (ASCII; all configured patterns are ASCII). -/
def pyLower (s : String) : String := ⟨s.data.map Char.toLower⟩

/-- Replacement worker: every step consumes at least one character of
the haystack, so fuel equal to the haystack length never runs out. -/
def replaceFuel (pat rep : List Char) : Nat → List Char → List Char
  | 0, l => l
  | _ + 1, [] => []
  | n + 1, c :: hs =>
    if pat ≠ [] && headMatch pat (c :: hs) then
      rep ++ replaceFuel pat rep n (hs.drop (pat.length - 1))
    else c :: replaceFuel pat rep n hs

/-- Replace every non-overlapping occurrence of `pat` (non-empty) by
`rep`, scanning left to right: Python `hay.replace(pat, rep)`. -/
def replaceL (pat rep hay : List Char) : List Char :=
  replaceFuel pat rep hay.length hay

/-- Python `s.replace(pat, rep)` for a non-empty `pat`. -/
def pyReplace (s pat rep : String) : String := ⟨replaceL pat.data rep.data s.data⟩

/-- One entry of an item's `blocks` list: the fragment dicts built by
`parse_newsletters`.  Text-bearing fragments carry `content`; image
fragments carry `url` instead (`'content' in block` is `content.isSome`). -/
structure Frag where
  ftype : String
  content : Option String
  url : Option String
  id : String
deriving DecidableEq

/-- A news item: the item dicts built by `parse_newsletters`.  Keys a
newsletter item's dict lacks (`origin_blog_url`, `type`) are modelled
as defaulted fields, matching `dict.get` reads; `hash` is the field
`deduplicate_items` sets on each processed item. -/
structure Item where
  title : String
  block_id : String
  content : String
  images : List String
  source_url : String
  source_title : String
  date : Option Nat
  origin_blog_url : Option String := none
  blocks : List Frag := []
  itype : Option String := none
  hash : String := ""
deriving DecidableEq

/-- One structural node of a newsletter page: a `div` carrying
`data-block-type` (`btype`) and `data-block-id` (`bid`, default `''`).
`rawText` is the node's `get_text()` result; `imgSrc` is the `src` of
the embedded `img` for image blocks (`none` when no `img` exists). -/
structure Block where
  btype : String
  bid : String
  rawText : String
  imgSrc : Option String
deriving DecidableEq

/-- The extracted main-content container of a blog-post page:
`rawText` is the content body's `get_text()` result, `imgSrcs` the
`src` attribute of each `img` inside it, in document order. -/
structure MainContent where
  rawText : String
  imgSrcs : List String
deriving DecidableEq

/-- One fetched source document.  `dtype` is
`newsletter.get('type', 'newsletter')`; `blocks` are the
`data-block-type` nodes found in a newsletter page; `main` is the
extracted main container of a blog-post page (`none` when
`soup.find('main') or soup.find('div', id='main') or soup.find('article')`
finds nothing); `origin` is the result of `extract_origin_blog_url`. -/
structure Doc where
  url : String
  title : String
  date : Option Nat
  dtype : String
  blocks : List Block
  main : Option MainContent
  origin : Option String
deriving DecidableEq

/-- The in-progress accumulator of the newsletter segmenter:
`current_item`, `item_blocks` and `item_block_ids`. -/
structure Acc where
  item : Item
  frags : List Frag
  ids : List String
deriving DecidableEq

/-- Segmenter state: the optional current accumulator plus the items
appended so far for this document. -/
structure SegState where
  acc : Option Acc
  out : List Item
deriving DecidableEq

/-- A fresh accumulator for `doc` (`parser.py` lines 249-259/263-274). -/
def freshAcc (doc : Doc) : Acc :=
  { item := { title := "", block_id := "", content := "", images := [],
              source_url := doc.url, source_title := doc.title,
              date := doc.date },
    frags := [], ids := [] }

/-- The first-content fallback title (`parser.py` lines 237-241 and
311-315): the first fragment having a `content` entry whose stripped
text is non-empty yields `clean_title(content[:100])`; otherwise the
title stays empty. -/
def fallbackTitle (frags : List Frag) : String :=
  match frags.find? (fun f => match f.content with
    | some c => pyStrip c ≠ ""
    | none => false) with
  | some f => clean_title (pyTake (f.content.getD "") 100)
  | none => ""

/-- The title the finalized item carries: the accumulated title when
non-empty, else the first-content fallback. -/
def resolveTitle (acc : Acc) : String :=
  if acc.item.title = "" then fallbackTitle acc.frags else acc.item.title

/-- The finalized item built from an accumulator: `blocks` set to the
accumulated fragments, `block_id` to the `-`-join of the accumulated
block ids, title resolved via the fallback. -/
def finalizedItem (acc : Acc) : Item :=
  { acc.item with
      blocks := acc.frags,
      block_id := joinSep "-" acc.ids,
      title := resolveTitle acc }

/-- Separator-triggered finalization (`parser.py` lines 231-246):
requires a non-empty fragment list to build the item at all, then
emits only when the resolved title is non-empty *and* the block-id
list is non-empty. -/
def sepFinalize (acc : Acc) : Option Item :=
  if acc.frags ≠ [] then
    let it := finalizedItem acc
    if it.title ≠ "" ∧ acc.ids ≠ [] then some it else none
  else none

/-- End-of-stream finalization (`parser.py` lines 307-319): requires a
non-empty fragment list, then emits when the resolved title or the
`blocks` field (the fragments) is non-empty. -/
def endFinalize (acc : Acc) : Option Item :=
  if acc.frags ≠ [] then
    let it := finalizedItem acc
    if it.title ≠ "" ∨ it.blocks ≠ [] then some it else none
  else none

/-- Processing of the recognized content block types (`parser.py`
lines 281-304); any other block type leaves the accumulator's
fragments and item unchanged. -/
def processBlock (b : Block) (acc : Acc) : Acc :=
  if b.btype = "text.title" then
    let title_text := pyStrip b.rawText
    let acc :=
      if acc.item.title = "" then
        { acc with item := { acc.item with title := clean_title title_text } }
      else acc
    { acc with frags := acc.frags ++ [⟨"text.title", some title_text, none, b.bid⟩] }
  else if b.btype = "text.paragraph" then
    { acc with frags := acc.frags ++ [⟨"text.paragraph", some (pyStrip b.rawText), none, b.bid⟩] }
  else if b.btype = "image.single" then
    match b.imgSrc with
    | some src =>
      let full := pyReplace (pyReplace src "/thumbs/" "/") "/thumb-" "/"
      { acc with
          frags := acc.frags ++ [⟨"image.single", none, some full, b.bid⟩],
          item := { acc.item with images := acc.item.images ++ [full] } }
    | none => acc
  else if b.btype = "items" then
    { acc with frags := acc.frags ++ [⟨"items", some (pyStrip b.rawText), none, b.bid⟩] }
  else acc

/-- One step of the newsletter segmentation loop (`parser.py`
lines 220-304): headers are skipped; `misc.separator`/`signature`
finalize the current accumulator (when present) and start a fresh one;
every other block starts an accumulator when none is active, records
its non-empty block id, and is then dispatched on its type. -/
def segStep (doc : Doc) (s : SegState) (b : Block) : SegState :=
  if b.btype = "header" then s
  else if b.btype = "misc.separator" ∨ b.btype = "signature" then
    let out :=
      match s.acc with
      | some acc => s.out ++ (sepFinalize acc).toList
      | none => s.out
    { acc := some (freshAcc doc), out := out }
  else
    let acc := s.acc.getD (freshAcc doc)
    let acc := if b.bid ≠ "" then { acc with ids := acc.ids ++ [b.bid] } else acc
    { s with acc := some (processBlock b acc) }

/-- Newsletter-kind segmentation: fold the block stream through
`segStep`, then apply the end-of-stream finalization. -/
def parseNewsletterDoc (doc : Doc) : List Item :=
  let s := doc.blocks.foldl (segStep doc) ⟨none, []⟩
  match s.acc with
  | some acc => s.out ++ (endFinalize acc).toList
  | none => s.out

/-- Blog-post segmentation (`parser.py` lines 163-208): when the main
content container was found, produce the single blog item; otherwise
produce nothing.  Image `src` values are kept only when non-empty. -/
def parseBlogDoc (doc : Doc) : List Item :=
  match doc.main with
  | none => []
  | some m =>
    let content_text := pyStrip m.rawText
    [{ title := doc.title,
       block_id := "blog_post_" ++ doc.url,
       content := content_text,
       images := m.imgSrcs.filter (fun s => s ≠ ""),
       source_url := doc.url,
       source_title := doc.title,
       date := doc.date,
       origin_blog_url := doc.origin,
       blocks := [⟨"blog_post_content", some content_text, none, doc.url⟩],
       itype := some "blog_post" }]

/-- Per-document dispatch of `parse_newsletters`
(`entry_type == 'blog_post'` selects the blog path). -/
def parseDoc (doc : Doc) : List Item :=
  if doc.dtype = "blog_post" then parseBlogDoc doc else parseNewsletterDoc doc

/-- `parse_newsletters`: the concatenation of every document's items.
The on-disk parse cache (`_load_parsed_items_from_cache` /
`_save_parsed_items_to_cache`) is an I/O memoization layer outside the
pure model; it replays exactly the items computed here. -/
def parse_newsletters (docs : List Doc) : List Item :=
  docs.flatMap parseDoc

/-- `_hash_item` from `parser.py`: the `block_id` when non-empty, else
a content digest of the title followed by every fragment's `content`
entry, in fragment order (`''.join(parts)`).  `digest` abstracts
`hashlib.sha256(...).hexdigest()`, a deterministic function of the
joined string. -/
def hash_item (digest : String → String) (item : Item) : String :=
  if item.block_id ≠ "" then item.block_id
  else digest (joinSep "" (item.title :: item.blocks.filterMap Frag.content))

/-- The `footer_only_patterns` denylist of `deduplicate_items`. -/
def footer_only_patterns : List String :=
  ["talawanda high school #educate",
   "talawanda middle school #",
   "bogan elementary #",
   "kramer elementary #",
   "marshall elementary #"]

/-- The noise test of `deduplicate_items` (lines 353-371) on a title:
the lowercased title must contain `zoom_out_map` and one of the
footer-only denylist patterns.  (`content` is lowercased in the source
too but used only in the log preview.) -/
def isNoiseTitle (title : String) : Bool :=
  let t := pyLower title
  pyContains t "zoom_out_map" && footer_only_patterns.any (fun p => pyContains t p)

/-- Noise test on an item: purely a function of its title. -/
def isNoise (item : Item) : Bool := isNoiseTitle item.title

/-- The replacement rule of `deduplicate_items` (lines 388-394): the
incoming item replaces the stored one exactly when it has a date and
the stored one has none or a strictly later one. -/
def pickEarlier (ex item : Item) : Item :=
  match item.date, ex.date with
  | some nd, some ed => if nd < ed then item else ex
  | some _, none => item
  | none, _ => ex

/-- Insert-or-replace into the `items_by_hash` association list
(insertion ordered, as a Python dict): a new key is appended; an
existing key's stored item is updated by `pickEarlier`. -/
def upsertItem (kv : List (String × Item)) (h : String) (item : Item) :
    List (String × Item) :=
  match kv with
  | [] => [(h, item)]
  | (k, ex) :: rest =>
    if k = h then (k, pickEarlier ex item) :: rest
    else (k, ex) :: upsertItem rest h item

/-- One iteration of the grouping loop of `deduplicate_items`:
noise items are recorded aside (dropped from the map), all others are
keyed by `_hash_item`, tagged with their hash, and upserted. -/
def dedupStep (digest : String → String) (kv : List (String × Item))
    (item : Item) : List (String × Item) :=
  if isNoise item then kv
  else
    let h := hash_item digest item
    upsertItem kv h { item with hash := h }

/-- `deduplicate_items` from `parser.py`.  The `state_file` parameter
is kept for signature compatibility and never read (the function body
performs no file access); the result is the in-order value list of the
`items_by_hash` map. -/
def deduplicate_items (digest : String → String) (items : List Item)
    (state_file : String) : List Item :=
  (items.foldl (dedupStep digest) []).map Prod.snd

/-- Python `s.endswith('/')`. -/
def endsSlash (s : String) : Bool := s.data.getLast? = some '/'

/-- The trailing-slash normalization `filter_cross_posted_items`
applies to the current blog URL. -/
def normalizeFeedUrl (u : String) : String :=
  if endsSlash u then u else u ++ "/"

/-- The keep test of `filter_cross_posted_items`: no origin URL
(`None` or empty, both falsy) keeps the item, as does an origin URL
equal to the (already normalized) current blog URL. -/
def keepItem (cur : String) (it : Item) : Bool :=
  match it.origin_blog_url with
  | none => true
  | some u => u = "" || u = cur

/-- `filter_cross_posted_items` from `newsletter_feed/main.py`:
normalize the current blog URL to end with `/`, then one pass that
appends kept items to one list and counts the cross-posts filtered
into the other. -/
def filter_cross_posted_items (items : List Item) (current_blog_url : String) :
    List Item × Nat :=
  let cur := if endsSlash current_blog_url then current_blog_url
             else current_blog_url ++ "/"
  items.foldl
    (fun (acc : List Item × Nat) it =>
      if keepItem cur it then (acc.1 ++ [it], acc.2) else (acc.1, acc.2 + 1))
    ([], 0)

/-- One step of the running minimum over optional dates. -/
def minDStep (a d : Option Nat) : Option Nat :=
  match a, d with
  | none, d => d
  | some x, none => some x
  | some x, some y => some (min x y)

/-- The earliest non-null date in a list of optional dates: `none`
when every entry is `none`, else the minimum of the present dates. -/
def minD (ds : List (Option Nat)) : Option Nat :=
  ds.foldl minDStep none

/-- The group of surviving (non-noise) input items having identity key
`k`, in input order. -/
def groupOf (digest : String → String) (items : List Item) (k : String) :
    List Item :=
  items.filter (fun it => !isNoise it && hash_item digest it = k)

/-- The value stored for key `k` in an association list (first entry
wins, as in a Python dict with unique keys). -/
def lookupA (kv : List (String × Item)) (k : String) : Option Item :=
  (kv.find? (fun p => p.1 = k)).map Prod.snd

/-- The invariant of the grouping loop of `deduplicate_items` after the
input prefix `processed` has been folded into the map `kv`: keys are
unique; a key is present exactly when some surviving processed item
carries it; and the stored item of a key is a member of its group,
tagged with the key as its `hash`, holding the earliest non-null date
observed in the group. -/
def DedupInv (digest : String → String) (processed : List Item)
    (kv : List (String × Item)) : Prop :=
  (kv.map Prod.fst).Nodup
  ∧ (∀ k, (lookupA kv k).isSome ↔ groupOf digest processed k ≠ [])
  ∧ (∀ k it, lookupA kv k = some it →
      it.hash = k
      ∧ it.date = minD ((groupOf digest processed k).map Item.date)
      ∧ ∃ m ∈ groupOf digest processed k, it = { m with hash := k })

/-- Blocks of the recognized newsletter types. -/
def recognizedTypes : List String :=
  ["text.title", "text.paragraph", "image.single", "items",
   "header", "misc.separator", "signature"]

/-- Example document for C10: an unrecognized block type followed by a
title block and a separator. -/
def exDocC10 : Doc :=
  ⟨"U", "NL", none, "newsletter",
   [⟨"weird.block", "u1", "zzz", none⟩, ⟨"text.title", "t1", "T", none⟩,
    ⟨"misc.separator", "s1", "", none⟩], none, none⟩

/-- A blog-post document whose main content container is not found. -/
def exDocC5 : Doc := ⟨"u", "T", none, "blog_post", [], none, none⟩

/-- An item whose attached origin blog URL lacks a trailing slash,
although its trailing-slash normalization equals the normalized feed
URL. -/
def exItemC6 : Item :=
  { title := "A", block_id := "b", content := "", images := [],
    source_url := "", source_title := "", date := none,
    origin_blog_url := some "https://x.org/tms-blog" }

/-- A single word of 101 identical characters. -/
def longWordC8 : String := String.mk (List.replicate 101 'a')

/-- A newsletter with one image block (no text content) followed by a
separator. -/
def exDocC1 : Doc :=
  ⟨"U", "NL", none, "newsletter",
   [⟨"image.single", "i1", "", some "s"⟩, ⟨"misc.separator", "s1", "", none⟩],
   none, none⟩

/-- A plain item with the given title, identity key and date, used in
concrete instantiations. -/
def mkItem (t bid : String) (d : Option Nat) (bs : List Frag) : Item :=
  { title := t, block_id := bid, content := "", images := [],
    source_url := "", source_title := "", date := d, blocks := bs }

/-! ### Theorems for the claims -/

/-- C7: a title whose whitespace-collapsed form has an even word count
with two textually identical halves is replaced by its first half (the
length cap then applies to that half); a title with an odd word count
is left unchanged by the self-duplication step; in particular
`clean_title "BRAVE DAY BRAVE DAY" = "BRAVE DAY"` and
`clean_title "Tiger Pride Night" = "Tiger Pride Night"`. -/
theorem claim_C7_selfdup :
    (∀ t : String,
        (pyWords (collapseWS t)).length % 2 = 0 →
        joinSep " " ((pyWords (collapseWS t)).take ((pyWords (collapseWS t)).length / 2)) =
          joinSep " " ((pyWords (collapseWS t)).drop ((pyWords (collapseWS t)).length / 2)) →
        clean_title t =
          capLength (joinSep " "
            ((pyWords (collapseWS t)).take ((pyWords (collapseWS t)).length / 2))))
    ∧ (∀ t : String,
        (pyWords (collapseWS t)).length % 2 = 1 →
        selfDedupe (collapseWS t) = collapseWS t)
    ∧ clean_title "BRAVE DAY BRAVE DAY" = "BRAVE DAY"
    ∧ clean_title "Tiger Pride Night" = "Tiger Pride Night" := by
  refine ⟨?_, ?_, by decide, by decide⟩
  · intro t h1 h2
    by_cases ht : t = ""
    · subst ht
      decide
    · rw [clean_title, if_neg ht]
      rw [selfDedupe]
      simp [h1, h2]
  · intro t h1
    rw [selfDedupe]
    simp only [h1]
    norm_num

/-- Witness for C7 at the concrete doubled title `"go go"`. -/
theorem claim_C7_selfdup_witness :
    clean_title "go go" =
      capLength (joinSep " "
        ((pyWords (collapseWS "go go")).take ((pyWords (collapseWS "go go")).length / 2))) :=
  claim_C7_selfdup.1 "go go" (by decide) (by decide)

/-- C9: the persisted seen-hash state file has no effect — `deduplicate_items`
never reads its `state_file` parameter, so its output is identical for
any two values of that parameter. -/
theorem claim_C9_state_file_unused (digest : String → String) (items : List Item)
    (s1 s2 : String) :
    deduplicate_items digest items s1 = deduplicate_items digest items s2 := rfl

/-- C10: a block whose declared type is unrecognized still starts a new
accumulator when none is active and still appends its non-empty block id
to the accumulated id list (hence to the finalized item's identity key),
while appending no fragment; concretely, an unknown block with id `u1`
before a title block with id `t1` yields one item whose identity key is
`u1-t1`. -/
theorem claim_C10_unknown_blocks (doc : Doc) (out : List Item) (b : Block)
    (hb : b.btype ∉ recognizedTypes) (hid : b.bid ≠ "") :
    segStep doc ⟨none, out⟩ b = ⟨some { freshAcc doc with ids := [b.bid] }, out⟩
    ∧ (∀ acc : Acc,
        segStep doc ⟨some acc, out⟩ b = ⟨some { acc with ids := acc.ids ++ [b.bid] }, out⟩)
    ∧ (parseNewsletterDoc exDocC10).map (fun it => (it.title, it.block_id)) =
        [("T", "u1-t1")] := by
  simp only [recognizedTypes, List.mem_cons, List.not_mem_nil, or_false, not_or] at hb
  obtain ⟨n1, n2, n3, n4, n5, n6, n7⟩ := hb
  refine ⟨?_, ?_, by decide⟩
  · simp [segStep, processBlock, freshAcc, n1, n2, n3, n4, n5, n6, n7, hid]
  · intro acc
    simp [segStep, processBlock, n1, n2, n3, n4, n5, n6, n7, hid]

/-- Witness for C10 at a concrete unknown block. -/
theorem claim_C10_unknown_blocks_witness :
    segStep exDocC10 ⟨none, []⟩ ⟨"weird.block", "u1", "zzz", none⟩ =
      ⟨some { freshAcc exDocC10 with ids := ["u1"] }, []⟩ :=
  (claim_C10_unknown_blocks exDocC10 [] ⟨"weird.block", "u1", "zzz", none⟩
    (by decide) (by decide)).1

/-- C5 counterexample: a BlogPost-kind document with no detectable main
content container produces zero items, not exactly one. -/
theorem claim_C5_counterexample :
    exDocC5.dtype = "blog_post" ∧ parseDoc exDocC5 = [] := by
  exact ⟨rfl, rfl⟩

/-- C5 (amended): for every BlogPost-kind document *whose main content
container is found*, segmentation produces exactly one Item, whose
title is the document's declared title (not normalized), whose
identity key is the literal prefix `blog_post_` joined with the
document URL, and whose single `blog_post_content` fragment carries
the extracted (stripped) main-content text, with the non-empty image
URLs collected separately. -/
theorem claim_C5_amended (doc : Doc) (m : MainContent)
    (hk : doc.dtype = "blog_post") (hm : doc.main = some m) :
    ∃ it : Item, parseDoc doc = [it]
      ∧ it.title = doc.title
      ∧ it.block_id = "blog_post_" ++ doc.url
      ∧ it.blocks = [⟨"blog_post_content", some (pyStrip m.rawText), none, doc.url⟩]
      ∧ it.content = pyStrip m.rawText
      ∧ it.images = m.imgSrcs.filter (fun s => s ≠ "") := by
  have hp : parseDoc doc =
      [{ title := doc.title,
         block_id := "blog_post_" ++ doc.url,
         content := pyStrip m.rawText,
         images := m.imgSrcs.filter (fun s => s ≠ ""),
         source_url := doc.url,
         source_title := doc.title,
         date := doc.date,
         origin_blog_url := doc.origin,
         blocks := [⟨"blog_post_content", some (pyStrip m.rawText), none, doc.url⟩],
         itype := some "blog_post" }] := by
    rw [parseDoc, if_pos hk, parseBlogDoc, hm]
  exact ⟨_, hp, rfl, rfl, rfl, rfl, rfl⟩

/-- Witness for C5 at a concrete blog-post document. -/
theorem claim_C5_amended_witness :
    ∃ it : Item,
      parseDoc ⟨"u", "T", some 3, "blog_post", [], some ⟨" body ", ["", "i"]⟩, none⟩ = [it]
      ∧ it.title = "T"
      ∧ it.block_id = "blog_post_" ++ "u"
      ∧ it.blocks = [⟨"blog_post_content", some (pyStrip " body "), none, "u"⟩]
      ∧ it.content = pyStrip " body "
      ∧ it.images = (["", "i"] : List String).filter (fun s => s ≠ "") :=
  claim_C5_amended ⟨"u", "T", some 3, "blog_post", [], some ⟨" body ", ["", "i"]⟩, none⟩
    ⟨" body ", ["", "i"]⟩ rfl rfl

/-- The cross-post loop grows its kept-list/removed-count pair by a
filter and a count. -/
theorem filter_cross_fold (cur : String) (items : List Item)
    (acc : List Item × Nat) :
    items.foldl
      (fun (acc : List Item × Nat) it =>
        if keepItem cur it then (acc.1 ++ [it], acc.2) else (acc.1, acc.2 + 1))
      acc =
      (acc.1 ++ items.filter (keepItem cur),
       acc.2 + items.countP (fun it => !keepItem cur it)) := by
  induction items generalizing acc with
  | nil => simp
  | cons x xs ih =>
    by_cases hx : keepItem cur x
    · simp [List.filter_cons, List.countP_cons, hx, ih]
    · simp [List.filter_cons, List.countP_cons, hx, ih, Nat.add_comm, Nat.add_assoc,
        Nat.add_left_comm]

/-- C6 counterexample: the filter does not normalize the item's origin
URL.  Here the origin URL normalized to a trailing slash equals the
normalized current feed URL, yet the item is removed (kept list empty,
one removal). -/
theorem claim_C6_counterexample :
    exItemC6.origin_blog_url = some "https://x.org/tms-blog"
    ∧ normalizeFeedUrl "https://x.org/tms-blog" = "https://x.org/tms-blog/"
    ∧ filter_cross_posted_items [exItemC6] "https://x.org/tms-blog" = ([], 1) := by
  refine ⟨rfl, by decide, by decide⟩

/-- C6 (amended): the cross-post filter keeps an item exactly when it
has no origin blog URL (`None`, or the empty string, both falsy) or
its origin blog URL *as attached* — origin detection already emits it
with a trailing slash, but the filter itself does not normalize it —
equals the trailing-slash-normalized current feed URL; it returns the
kept items in order together with the count of removed items. -/
theorem claim_C6_amended (items : List Item) (current_blog_url : String) :
    (filter_cross_posted_items items current_blog_url).1 =
      items.filter (keepItem (normalizeFeedUrl current_blog_url))
    ∧ (filter_cross_posted_items items current_blog_url).2 =
      items.countP (fun it => !keepItem (normalizeFeedUrl current_blog_url) it) := by
  rw [filter_cross_posted_items]
  rw [show (if endsSlash current_blog_url then current_blog_url
        else current_blog_url ++ "/") = normalizeFeedUrl current_blog_url from rfl]
  rw [filter_cross_fold]
  exact ⟨by simp, by simp⟩

/-- C8 counterexample: a >100-character title that is a single word is
truncated to its first 100 characters plus `"..."`; the cut is not at
a word boundary of the normalized title (the character after the kept
stem is `'a'`, not a space or the end). -/
theorem claim_C8_counterexample :
    clean_title longWordC8 = String.mk (List.replicate 100 'a') ++ "..."
    ∧ pyLen (selfDedupe (collapseWS longWordC8)) = 101
    ∧ ¬ (100 = pyLen (selfDedupe (collapseWS longWordC8))
         ∨ (selfDedupe (collapseWS longWordC8)).data.get? 100 = some ' ') := by
  refine ⟨by decide, by decide, by decide⟩

/-- `beforeLastSpaceL` never lengthens a list. -/
theorem beforeLastSpaceL_length_le (l : List Char) :
    (beforeLastSpaceL l).length ≤ l.length := by
  rw [beforeLastSpaceL]
  split
  · simp only [List.length_reverse]
    calc ((l.reverse.dropWhile (fun c => c ≠ ' ')).drop 1).length
        ≤ (l.reverse.dropWhile (fun c => c ≠ ' ')).length :=
          (List.drop_sublist _ _).length_le
      _ ≤ l.reverse.length := (List.dropWhile_sublist _).length_le
      _ = l.length := List.length_reverse l
  · exact Nat.le_refl _

/-- When `l` contains a space, `beforeLastSpaceL l` is the prefix of
`l` ending just before its last space. -/
theorem beforeLastSpaceL_spec (l : List Char) (h : ' ' ∈ l) :
    ∃ rest : List Char, l = beforeLastSpaceL l ++ ' ' :: rest := by
  rw [beforeLastSpaceL, if_pos h]
  have hne : l.reverse.dropWhile (fun c => c ≠ ' ') ≠ [] := by
    intro hnil
    have := List.dropWhile_eq_nil_iff.mp hnil ' ' (by simpa using h)
    simp at this
  obtain ⟨c, tl, hct⟩ := List.exists_cons_of_ne_nil hne
  have hc : c = ' ' := by
    have h2 := List.head?_dropWhile_not (fun c => c ≠ ' ') l.reverse
    rw [hct] at h2
    simpa using h2
  refine ⟨(l.reverse.takeWhile (fun c => c ≠ ' ')).reverse, ?_⟩
  conv_lhs => rw [← l.reverse_reverse,
    ← List.takeWhile_append_dropWhile (p := fun c => c ≠ ' ') (l := l.reverse)]
  rw [hct, hc]
  simp

/-- C8 (amended): when the normalized (collapsed, de-duplicated) title
exceeds 100 characters, `clean_title` keeps the part of the first
100 characters strictly before their last space — a whole-word
boundary — when those 100 characters contain a space, and otherwise
keeps the whole 100-character prefix, cutting mid-word; `"..."` is
appended and the result never exceeds 103 characters. -/
theorem claim_C8_amended (t : String)
    (h : 100 < pyLen (selfDedupe (collapseWS t))) :
    clean_title t =
      beforeLastSpace (pyTake (selfDedupe (collapseWS t)) 100) ++ "..."
    ∧ pyLen (clean_title t) ≤ 103
    ∧ (' ' ∈ (selfDedupe (collapseWS t)).data.take 100 →
        ∃ rest : List Char,
          (selfDedupe (collapseWS t)).data.take 100 =
            (beforeLastSpace (pyTake (selfDedupe (collapseWS t)) 100)).data
              ++ ' ' :: rest) := by
  have ht : t ≠ "" := by
    intro hte
    subst hte
    revert h
    decide
  have hclean : clean_title t =
      beforeLastSpace (pyTake (selfDedupe (collapseWS t)) 100) ++ "..." := by
    rw [clean_title, if_neg ht, capLength, if_pos h]
  refine ⟨hclean, ?_, ?_⟩
  · rw [hclean]
    have hb : (beforeLastSpaceL ((selfDedupe (collapseWS t)).data.take 100)).length ≤ 100 := by
      calc (beforeLastSpaceL ((selfDedupe (collapseWS t)).data.take 100)).length
          ≤ ((selfDedupe (collapseWS t)).data.take 100).length :=
            beforeLastSpaceL_length_le _
        _ ≤ 100 := by simpa using List.length_take_le 100 _
    simp only [pyLen, String.data_append, List.length_append]
    simpa [beforeLastSpace, pyTake] using Nat.add_le_add hb (Nat.le_refl 3)
  · intro hsp
    simpa [beforeLastSpace, pyTake] using
      beforeLastSpaceL_spec ((selfDedupe (collapseWS t)).data.take 100) hsp

set_option maxRecDepth 4000 in
/-- Witness for C8 (amended) at a concrete 124-character title of 25
words (odd count, so the self-duplication step keeps it long). -/
theorem claim_C8_amended_witness :
    pyLen (clean_title (joinSep " " (List.replicate 25 "abcd"))) ≤ 103 :=
  (claim_C8_amended (joinSep " " (List.replicate 25 "abcd")) (by decide)).2.1

/-- C1 counterexample: at the separator the accumulated item has a
non-empty fragment list (the image fragment), yet nothing is emitted —
separator-triggered finalization also demands a non-empty resolved
title, which an image-only item lacks. -/
theorem claim_C1_counterexample :
    ((exDocC1.blocks.take 1).foldl (segStep exDocC1) ⟨none, []⟩).acc.map
        (fun a => a.frags.length) = some 1
    ∧ parseNewsletterDoc exDocC1 = [] := by
  refine ⟨by decide, by decide⟩

/-- C1 (amended): end-of-stream finalization emits the accumulated item
exactly when its fragment list is non-empty; separator-triggered
finalization emits it exactly when its fragment list is non-empty *and*
its resolved title (after the first-content fallback) is non-empty
*and* its block-id list is non-empty; a separator/signature block turns
the state into a fresh accumulator after appending whatever
`sepFinalize` emits; and an accumulator with no fragments (e.g. between
two adjacent separators) is never emitted at either finalization
point. -/
theorem claim_C1_amended :
    (∀ acc : Acc, (endFinalize acc).isSome ↔ acc.frags ≠ [])
    ∧ (∀ acc : Acc,
        (sepFinalize acc).isSome ↔
          (acc.frags ≠ [] ∧ resolveTitle acc ≠ "" ∧ acc.ids ≠ []))
    ∧ (∀ (doc : Doc) (acc : Acc) (out : List Item) (b : Block),
        (b.btype = "misc.separator" ∨ b.btype = "signature") →
        segStep doc ⟨some acc, out⟩ b =
          ⟨some (freshAcc doc), out ++ (sepFinalize acc).toList⟩)
    ∧ (∀ acc : Acc, acc.frags = [] →
        sepFinalize acc = none ∧ endFinalize acc = none) := by
  refine ⟨?_, ?_, ?_, ?_⟩
  · intro acc
    rw [endFinalize]
    by_cases hf : acc.frags = []
    · simp [hf]
    · simp [hf, finalizedItem]
  · intro acc
    rw [sepFinalize]
    by_cases hf : acc.frags = []
    · simp [hf]
    · by_cases hc : resolveTitle acc ≠ "" ∧ acc.ids ≠ []
      · simp [hf, finalizedItem, hc]
      · simp only [finalizedItem] at *
        simp [hf, hc]
  · intro doc acc out b hb
    have hbh : ¬ b.btype = "header" := by
      rcases hb with h | h <;> simp [h]
    rw [segStep, if_neg hbh, if_pos hb]
  · intro acc hf
    constructor
    · rw [sepFinalize]
      simp [hf]
    · rw [endFinalize]
      simp [hf]

/-- Witness for C1 (amended): a concrete accumulator with one titled
fragment and one block id is emitted by separator finalization. -/
theorem claim_C1_amended_witness :
    (sepFinalize
      { item := { title := "T", block_id := "", content := "", images := [],
                  source_url := "U", source_title := "NL", date := none },
        frags := [⟨"text.title", some "T", none, "t1"⟩],
        ids := ["t1"] }).isSome :=
  (claim_C1_amended.2.1
    { item := { title := "T", block_id := "", content := "", images := [],
                source_url := "U", source_title := "NL", date := none },
      frags := [⟨"text.title", some "T", none, "t1"⟩],
      ids := ["t1"] }).mpr ⟨by decide, by decide, by decide⟩

/-! ### Association-list lemmas for the dedup map -/

/-- Keys after an upsert: unchanged when the key is present, appended
otherwise. -/
theorem upsert_map_fst (kv : List (String × Item)) (h : String) (v : Item) :
    (upsertItem kv h v).map Prod.fst =
      if h ∈ kv.map Prod.fst then kv.map Prod.fst else kv.map Prod.fst ++ [h] := by
  induction kv with
  | nil => simp [upsertItem]
  | cons p rest ih =>
    obtain ⟨k, ex⟩ := p
    by_cases hk : k = h
    · subst hk
      simp [upsertItem]
    · rw [upsertItem]
      rw [if_neg hk]
      by_cases hm : h ∈ rest.map Prod.fst
      · simp [hm, ih, hk, Ne.symm hk]
      · simp [hm, ih, hk, Ne.symm hk]

/-- Lookup at the head key of an association list. -/
theorem lookupA_cons_self (k0 : String) (ex0 : Item) (tl : List (String × Item)) :
    lookupA ((k0, ex0) :: tl) k0 = some ex0 := by
  simp [lookupA]

/-- Lookup skips a head entry with a different key. -/
theorem lookupA_cons_ne (k0 : String) (ex0 : Item) (tl : List (String × Item))
    (k : String) (hne : k0 ≠ k) :
    lookupA ((k0, ex0) :: tl) k = lookupA tl k := by
  simp [lookupA, List.find?_cons, hne]

/-- Lookup after an upsert: the touched key now stores the inserted
value, or the `pickEarlier` combination with the previously stored
one; other keys are untouched. -/
theorem lookupA_upsert (kv : List (String × Item)) (h : String) (v : Item)
    (k : String) :
    lookupA (upsertItem kv h v) k =
      if k = h then
        some (match lookupA kv h with
              | none => v
              | some ex => pickEarlier ex v)
      else lookupA kv k := by
  induction kv with
  | nil =>
    by_cases hk : k = h
    · subst hk
      rw [show upsertItem [] k v = [(k, v)] from rfl, lookupA_cons_self, if_pos rfl]
      rfl
    · rw [show upsertItem [] h v = [(h, v)] from rfl,
        lookupA_cons_ne h v [] k (fun he => hk he.symm), if_neg hk]
  | cons p rest ih =>
    obtain ⟨k0, ex0⟩ := p
    by_cases h0 : k0 = h
    · subst h0
      rw [upsertItem, if_pos rfl]
      by_cases hk : k = k0
      · subst hk
        rw [lookupA_cons_self, if_pos rfl, lookupA_cons_self]
      · rw [if_neg hk, lookupA_cons_ne k0 _ rest k (fun he => hk he.symm),
          lookupA_cons_ne k0 ex0 rest k (fun he => hk he.symm)]
    · rw [upsertItem, if_neg h0]
      by_cases hk : k = k0
      · subst hk
        rw [lookupA_cons_self, if_neg h0, lookupA_cons_self]
      · rw [lookupA_cons_ne k0 _ _ k (fun he => hk he.symm), ih,
          lookupA_cons_ne k0 ex0 rest k (fun he => hk he.symm)]
        by_cases hkh : k = h
        · rw [if_pos hkh, if_pos hkh, lookupA_cons_ne k0 ex0 rest h h0]
        · rw [if_neg hkh, if_neg hkh]

/-- With unique keys, each stored entry is what lookup returns for its
key. -/
theorem lookupA_of_mem (kv : List (String × Item)) (p : String × Item)
    (hmem : p ∈ kv) (hnd : (kv.map Prod.fst).Nodup) :
    lookupA kv p.1 = some p.2 := by
  induction kv with
  | nil => simp at hmem
  | cons q rest ih =>
    obtain ⟨k0, ex0⟩ := q
    simp only [List.map_cons, List.nodup_cons] at hnd
    rcases List.mem_cons.mp hmem with hq | hq
    · subst hq
      exact lookupA_cons_self k0 ex0 rest
    · have hne : k0 ≠ p.1 := by
        intro he
        exact hnd.1 (he ▸ (List.mem_map.mpr ⟨p, hq, rfl⟩))
      rw [lookupA_cons_ne k0 ex0 rest p.1 hne]
      exact ih hq hnd.2

/-- A value stored by lookup is one of the map's values. -/
theorem lookupA_mem_values (kv : List (String × Item)) (k : String) (it : Item)
    (hl : lookupA kv k = some it) : it ∈ kv.map Prod.snd := by
  rw [lookupA] at hl
  match hfind : kv.find? (fun p => p.1 = k) with
  | none => rw [hfind] at hl; simp at hl
  | some p =>
    rw [hfind] at hl
    have hpit : p.2 = it := by simpa using hl
    exact hpit ▸ List.mem_map.mpr ⟨p, List.mem_of_find?_eq_some hfind, rfl⟩

/-- Every value of an upserted map is the inserted value, a
`pickEarlier` combination of it with an old value, or an old value. -/
theorem upsert_values (kv : List (String × Item)) (h : String) (v : Item)
    (p : String × Item) (hp : p ∈ upsertItem kv h v) :
    p.2 = v ∨ (∃ q ∈ kv, p.2 = pickEarlier q.2 v) ∨ ∃ q ∈ kv, p.2 = q.2 := by
  induction kv with
  | nil =>
    rw [show upsertItem [] h v = [(h, v)] from rfl] at hp
    rcases List.mem_cons.mp hp with hq | hq
    · exact Or.inl (congrArg Prod.snd hq)
    · exact absurd hq (List.not_mem_nil p)
  | cons q0 rest ih =>
    obtain ⟨k0, ex0⟩ := q0
    rw [upsertItem] at hp
    by_cases h0 : k0 = h
    · rw [if_pos h0] at hp
      rcases List.mem_cons.mp hp with hq | hq
      · exact Or.inr (Or.inl ⟨(k0, ex0), List.mem_cons_self _ _, by rw [hq]⟩)
      · exact Or.inr (Or.inr ⟨p, List.mem_cons_of_mem _ hq, rfl⟩)
    · rw [if_neg h0] at hp
      rcases List.mem_cons.mp hp with hq | hq
      · exact Or.inr (Or.inr ⟨(k0, ex0), List.mem_cons_self _ _, by rw [hq]⟩)
      · rcases ih hq with h1 | h2 | h3
        · exact Or.inl h1
        · obtain ⟨q, hq1, hq2⟩ := h2
          exact Or.inr (Or.inl ⟨q, List.mem_cons_of_mem _ hq1, hq2⟩)
        · obtain ⟨q, hq1, hq2⟩ := h3
          exact Or.inr (Or.inr ⟨q, List.mem_cons_of_mem _ hq1, hq2⟩)

/-- `pickEarlier` returns one of its two arguments. -/
theorem pickEarlier_cases (ex v : Item) :
    pickEarlier ex v = ex ∨ pickEarlier ex v = v := by
  rw [pickEarlier]
  match v.date, ex.date with
  | some nd, some ed =>
    by_cases hlt : nd < ed
    · simp [hlt]
    · simp [hlt]
  | some _, none => simp
  | none, none => simp
  | none, some _ => simp

/-- The noise test only reads the title. -/
theorem isNoise_eq_of_title (it1 it2 : Item) (h : it1.title = it2.title) :
    isNoise it1 = isNoise it2 := by
  rw [isNoise, isNoise, h]

/-- Re-tagging the hash does not change the title, so it does not
change noisiness. -/
theorem isNoise_hash_tag (it : Item) (h : String) :
    isNoise { it with hash := h } = isNoise it := rfl

/-- C4: noise filtering precedes grouping, so nothing noisy survives:
every member of `deduplicate_items`' output fails the denylist test,
and in particular no output item is titled
`"zoom_out_map talawanda high school #educate"`, regardless of its
fragments. -/
theorem claim_C4_noise_filter (digest : String → String) (items : List Item)
    (sf : String) :
    (∀ o ∈ deduplicate_items digest items sf, isNoise o = false)
    ∧ (∀ o ∈ deduplicate_items digest items sf,
        o.title ≠ "zoom_out_map talawanda high school #educate") := by
  have main : ∀ o ∈ deduplicate_items digest items sf, isNoise o = false := by
    have inv : ∀ (l : List Item) (kv : List (String × Item)),
        (∀ p ∈ kv, isNoise p.2 = false) →
        ∀ p ∈ l.foldl (dedupStep digest) kv, isNoise p.2 = false := by
      intro l
      induction l with
      | nil => intro kv hkv p hp; exact hkv p hp
      | cons x xs ih =>
        intro kv hkv p hp
        rw [List.foldl_cons] at hp
        refine ih _ ?_ p hp
        intro q hq
        rw [dedupStep] at hq
        by_cases hx : isNoise x
        · rw [if_pos hx] at hq
          exact hkv q hq
        · rw [if_neg hx] at hq
          rcases upsert_values _ _ _ q hq with h1 | h2 | h3
          · rw [h1, isNoise_hash_tag]
            exact Bool.not_eq_true _ ▸ (by simpa using hx)
          · obtain ⟨q0, hq0, hq2⟩ := h2
            rcases pickEarlier_cases q0.2 { x with hash := hash_item digest x }
              with hc | hc
            · rw [hq2, hc]; exact hkv q0 hq0
            · rw [hq2, hc, isNoise_hash_tag]
              simpa using hx
          · obtain ⟨q0, hq0, hq2⟩ := h3
            rw [hq2]; exact hkv q0 hq0
    intro o ho
    rw [deduplicate_items] at ho
    obtain ⟨p, hp, hpo⟩ := List.mem_map.mp ho
    exact hpo ▸ inv items [] (by simp) p hp
  refine ⟨main, ?_⟩
  intro o ho htitle
  have h1 := main o ho
  have h2 : isNoise o = true := by
    rw [isNoise, htitle]
    decide
  rw [h1] at h2
  exact Bool.false_ne_true h2

/-- Witness for C4 at a concrete one-item run. -/
theorem claim_C4_noise_filter_witness :
    isNoise { mkItem "hello" "k" (some 3) [] with hash := "k" } = false :=
  (claim_C4_noise_filter id [mkItem "hello" "k" (some 3) []] "sf").1
    { mkItem "hello" "k" (some 3) [] with hash := "k" } (by decide)

/-- C3: an item with an empty `block_id` is keyed by the content digest
of its title followed by every fragment's text in fragment order, so
two such items with identical titles and fragment texts share one
identity key and (when not noise) merge into a single deduplicated
item. -/
theorem claim_C3_content_fallback (digest : String → String) (sf : String)
    (it1 it2 : Item)
    (h1 : it1.block_id = "") (h2 : it2.block_id = "")
    (ht : it1.title = it2.title)
    (hf : it1.blocks.filterMap Frag.content = it2.blocks.filterMap Frag.content) :
    hash_item digest it1 = hash_item digest it2
    ∧ (isNoise it1 = false →
        (deduplicate_items digest [it1, it2] sf).length = 1) := by
  have hkey : hash_item digest it1 = hash_item digest it2 := by
    rw [hash_item, hash_item, h1, h2]
    simp only [ne_eq, not_true_eq_false, if_false, ht, hf]
  refine ⟨hkey, ?_⟩
  intro hn1
  have hn2 : isNoise it2 = false := by
    rw [← isNoise_eq_of_title it1 it2 ht]
    exact hn1
  rw [deduplicate_items]
  rw [show ([it1, it2].foldl (dedupStep digest) []) =
      dedupStep digest (dedupStep digest [] it1) it2 from rfl]
  rw [show dedupStep digest [] it1 =
      [(hash_item digest it1, { it1 with hash := hash_item digest it1 })] by
    rw [dedupStep, if_neg (by simp [hn1])]
    rfl]
  rw [dedupStep, if_neg (by simp [hn2])]
  rw [upsertItem, if_pos hkey]
  rfl

/-- Witness for C3 at two concrete block-id-less items. -/
theorem claim_C3_content_fallback_witness :
    (deduplicate_items id
      [mkItem "W" "" (some 5) [⟨"text.paragraph", some "c", none, ""⟩],
       mkItem "W" "" (some 2) [⟨"text.paragraph", some "c", none, "x"⟩]]
      "sf").length = 1 :=
  (claim_C3_content_fallback id "sf"
    (mkItem "W" "" (some 5) [⟨"text.paragraph", some "c", none, ""⟩])
    (mkItem "W" "" (some 2) [⟨"text.paragraph", some "c", none, "x"⟩])
    rfl rfl rfl rfl).2 (by decide)

/-! ### Lemmas on the running date minimum -/

/-- Appending one date to the list steps the running minimum once. -/
theorem minD_append_single (ds : List (Option Nat)) (d : Option Nat) :
    minD (ds ++ [d]) = minDStep (minD ds) d := by
  rw [minD, minD, List.foldl_append, List.foldl_cons, List.foldl_nil]

/-- The running minimum of a singleton. -/
theorem minD_single (d : Option Nat) : minD [d] = d := by
  cases d <;> rfl

/-- The combining step is `none` only when both inputs are. -/
theorem minDStep_eq_none (a d : Option Nat) (h : minDStep a d = none) :
    a = none ∧ d = none := by
  cases a <;> cases d <;> simp [minDStep] at h ⊢

/-- The combining step attains one of its inputs, below both. -/
theorem minDStep_eq_some (a d : Option Nat) (x : Nat)
    (h : minDStep a d = some x) :
    (a = some x ∨ d = some x)
    ∧ (∀ y, a = some y → x ≤ y) ∧ (∀ y, d = some y → x ≤ y) := by
  cases a with
  | none =>
    cases d with
    | none => simp [minDStep] at h
    | some y =>
      simp only [minDStep] at h
      injection h with h1
      subst h1
      refine ⟨Or.inr rfl, ?_, ?_⟩
      · intro z hz; simp at hz
      · intro z hz
        injection hz with h2
        omega
  | some a0 =>
    cases d with
    | none =>
      simp only [minDStep] at h
      injection h with h1
      subst h1
      refine ⟨Or.inl rfl, ?_, ?_⟩
      · intro z hz
        injection hz with h2
        omega
      · intro z hz; simp at hz
    | some y0 =>
      simp only [minDStep] at h
      injection h with h1
      subst h1
      refine ⟨?_, ?_, ?_⟩
      · rcases Nat.le_total a0 y0 with hle | hle
        · exact Or.inl (by rw [Nat.min_eq_left hle])
        · exact Or.inr (by rw [Nat.min_eq_right hle])
      · intro z hz
        injection hz with h2
        rw [← h2]
        exact Nat.min_le_left _ _
      · intro z hz
        injection hz with h2
        rw [← h2]
        exact Nat.min_le_right _ _

/-- A fold of `minDStep` ending in `none` saw only `none`s. -/
theorem foldl_minD_none (ds : List (Option Nat)) :
    ∀ a, ds.foldl minDStep a = none → a = none ∧ ∀ d ∈ ds, d = none := by
  induction ds with
  | nil =>
    intro a h
    exact ⟨h, by intro d hd; exact absurd hd (List.not_mem_nil d)⟩
  | cons d0 ds' ih =>
    intro a h
    rw [List.foldl_cons] at h
    obtain ⟨h1, h2⟩ := ih (minDStep a d0) h
    obtain ⟨ha, hd0⟩ := minDStep_eq_none a d0 h1
    refine ⟨ha, ?_⟩
    intro d hd
    rcases List.mem_cons.mp hd with hd | hd
    · exact hd ▸ hd0
    · exact h2 d hd

/-- A fold of `minDStep` ending in `some m` attains `m` in the list or
as the seed, and `m` is below every present date and the seed. -/
theorem foldl_minD_some (ds : List (Option Nat)) :
    ∀ a m, ds.foldl minDStep a = some m →
      (some m ∈ ds ∨ a = some m)
      ∧ (∀ e, some e ∈ ds → m ≤ e) ∧ (∀ x, a = some x → m ≤ x) := by
  induction ds with
  | nil =>
    intro a m h
    rw [List.foldl_nil] at h
    refine ⟨Or.inr h, ?_, ?_⟩
    · intro e he; exact absurd he (List.not_mem_nil _)
    · intro x hx
      rw [h] at hx
      injection hx with h1
      omega
  | cons d0 ds' ih =>
    intro a m h
    rw [List.foldl_cons] at h
    obtain ⟨hmem, hbound, hseed⟩ := ih (minDStep a d0) m h
    have hstep : ∀ x, minDStep a d0 = some x → m ≤ x := hseed
    have hstep_mem : minDStep a d0 = some m → (a = some m ∨ d0 = some m) := by
      intro hx
      exact (minDStep_eq_some a d0 m hx).1
    refine ⟨?_, ?_, ?_⟩
    · rcases hmem with hm | hm
      · exact Or.inl (List.mem_cons_of_mem _ hm)
      · rcases hstep_mem hm with ha | hd
        · exact Or.inr ha
        · exact Or.inl (hd ▸ List.mem_cons_self _ _)
    · intro e he
      rcases List.mem_cons.mp he with he | he
      · match hx : minDStep a d0 with
        | none =>
          obtain ⟨_, hd0⟩ := minDStep_eq_none a d0 hx
          rw [hd0] at he
          cases he
        | some x0 =>
          have h1 := hstep x0 hx
          have h2 := (minDStep_eq_some a d0 x0 hx).2.2 e he.symm
          omega
      · exact hbound e he
    · intro x hx
      match hy : minDStep a d0 with
      | none =>
        obtain ⟨ha, _⟩ := minDStep_eq_none a d0 hy
        rw [ha] at hx
        cases hx
      | some y0 =>
        have h1 := hstep y0 hy
        have h2 := (minDStep_eq_some a d0 y0 hy).2.1 x hx
        omega

/-- The date kept by the replacement rule is the stepped running
minimum of the stored and incoming dates. -/
theorem pickEarlier_date (ex v : Item) :
    (pickEarlier ex v).date = minDStep ex.date v.date := by
  rw [pickEarlier]
  match hv : v.date, hex : ex.date with
  | some nd, some ed =>
    show (if nd < ed then v else ex).date = minDStep (some ed) (some nd)
    by_cases hlt : nd < ed
    · rw [if_pos hlt, hv]
      show some nd = some (min ed nd)
      rw [Nat.min_eq_right (Nat.le_of_lt hlt)]
    · rw [if_neg hlt, hex]
      show some ed = some (min ed nd)
      rw [Nat.min_eq_left (Nat.le_of_not_lt hlt)]
  | some nd, none =>
    show v.date = minDStep none (some nd)
    rw [hv]
    rfl
  | none, some ed =>
    show ex.date = minDStep (some ed) none
    rw [hex]
    rfl
  | none, none =>
    show ex.date = minDStep none none
    rw [hex]
    rfl

/-- A key is looked up successfully exactly when it is one of the
map's keys. -/
theorem lookupA_isSome_iff (kv : List (String × Item)) (k : String) :
    (lookupA kv k).isSome ↔ k ∈ kv.map Prod.fst := by
  induction kv with
  | nil => simp [lookupA]
  | cons p rest ih =>
    obtain ⟨k0, ex0⟩ := p
    by_cases hk : k0 = k
    · subst hk
      rw [lookupA_cons_self]
      simp
    · rw [lookupA_cons_ne k0 ex0 rest k hk]
      simp only [List.map_cons, List.mem_cons]
      rw [ih]
      constructor
      · exact Or.inr
      · intro h
        rcases h with h | h
        · exact absurd h.symm hk
        · exact h

/-- Appending a noise item changes no group. -/
theorem groupOf_append_noise (digest : String → String) (pre : List Item)
    (x : Item) (k : String) (hn : isNoise x = true) :
    groupOf digest (pre ++ [x]) k = groupOf digest pre k := by
  rw [groupOf, groupOf, List.filter_append]
  simp [hn]

/-- Appending an item with a different key changes this group not at
all. -/
theorem groupOf_append_other (digest : String → String) (pre : List Item)
    (x : Item) (k : String) (hk : ¬ hash_item digest x = k) :
    groupOf digest (pre ++ [x]) k = groupOf digest pre k := by
  rw [groupOf, groupOf, List.filter_append]
  simp [hk]

/-- Appending a surviving item extends its own group by itself. -/
theorem groupOf_append_self (digest : String → String) (pre : List Item)
    (x : Item) (hn : isNoise x = false) :
    groupOf digest (pre ++ [x]) (hash_item digest x) =
      groupOf digest pre (hash_item digest x) ++ [x] := by
  rw [groupOf, groupOf, List.filter_append]
  simp [hn]

/-- One step of the grouping loop preserves the dedup invariant. -/
theorem dedup_step_inv (digest : String → String) (pre : List Item)
    (kv : List (String × Item)) (x : Item) (hinv : DedupInv digest pre kv) :
    DedupInv digest (pre ++ [x]) (dedupStep digest kv x) := by
  obtain ⟨hnd, hiff, hstore⟩ := hinv
  by_cases hn : isNoise x
  · rw [dedupStep, if_pos hn]
    refine ⟨hnd, ?_, ?_⟩
    · intro k
      rw [groupOf_append_noise digest pre x k hn]
      exact hiff k
    · intro k it hl
      rw [groupOf_append_noise digest pre x k hn]
      exact hstore k it hl
  · rw [dedupStep, if_neg hn]
    have hnb : isNoise x = false := by simpa using hn
    refine ⟨?_, ?_, ?_⟩
    · rw [upsert_map_fst]
      by_cases hm : hash_item digest x ∈ kv.map Prod.fst
      · rw [if_pos hm]
        exact hnd
      · rw [if_neg hm]
        simp [List.nodup_append, hnd, hm]
    · intro k
      by_cases hk : k = hash_item digest x
      · subst hk
        rw [lookupA_upsert, if_pos rfl]
        rw [groupOf_append_self digest pre x hnb]
        simp
      · rw [lookupA_upsert, if_neg hk]
        rw [groupOf_append_other digest pre x k (fun he => hk he.symm)]
        exact hiff k
    · intro k it hl
      by_cases hk : k = hash_item digest x
      · subst hk
        rw [lookupA_upsert, if_pos rfl] at hl
        injection hl with hl1
        match hl0 : lookupA kv (hash_item digest x) with
        | none =>
          have hit : it = { x with hash := hash_item digest x } := by
            rw [hl0] at hl1
            exact hl1.symm
          have hempty : groupOf digest pre (hash_item digest x) = [] := by
            have h1 := hiff (hash_item digest x)
            rw [hl0] at h1
            simpa using h1
          rw [groupOf_append_self digest pre x hnb, hempty]
          refine ⟨by rw [hit], ?_, ?_⟩
          · rw [hit]
            simp [minD_single]
          · exact ⟨x, by simp, by rw [hit]⟩
        | some ex =>
          have hit : it = pickEarlier ex { x with hash := hash_item digest x } := by
            rw [hl0] at hl1
            exact hl1.symm
          obtain ⟨hexh, hexd, m0, hm0, hexm0⟩ :=
            hstore (hash_item digest x) ex hl0
          rw [groupOf_append_self digest pre x hnb]
          refine ⟨?_, ?_, ?_⟩
          · rw [hit]
            rcases pickEarlier_cases ex { x with hash := hash_item digest x }
              with hc | hc
            · rw [hc]; exact hexh
            · rw [hc]
          · rw [hit, pickEarlier_date, hexd]
            rw [show ({ x with hash := hash_item digest x } : Item).date = x.date
              from rfl]
            rw [List.map_append, List.map_cons, List.map_nil,
              minD_append_single]
          · rcases pickEarlier_cases ex { x with hash := hash_item digest x }
              with hc | hc
            · refine ⟨m0, List.mem_append_left _ hm0, ?_⟩
              rw [hit, hc]
              exact hexm0
            · refine ⟨x, List.mem_append_right _ (by simp), ?_⟩
              rw [hit, hc]
      · rw [lookupA_upsert, if_neg hk] at hl
        rw [groupOf_append_other digest pre x k (fun he => hk he.symm)]
        exact hstore k it hl

/-- Folding any input suffix through the grouping loop preserves the
dedup invariant. -/
theorem dedup_fold_inv (digest : String → String) :
    ∀ (rest pre : List Item) (kv : List (String × Item)),
      DedupInv digest pre kv →
      DedupInv digest (pre ++ rest) (rest.foldl (dedupStep digest) kv) := by
  intro rest
  induction rest with
  | nil =>
    intro pre kv hinv
    rw [List.append_nil, List.foldl_nil]
    exact hinv
  | cons x rest' ih =>
    intro pre kv hinv
    rw [List.foldl_cons,
      show pre ++ x :: rest' = (pre ++ [x]) ++ rest' by simp]
    exact ih (pre ++ [x]) _ (dedup_step_inv digest pre kv x hinv)

/-- The dedup invariant holds of the full input list and final map. -/
theorem dedup_inv_final (digest : String → String) (items : List Item) :
    DedupInv digest items (items.foldl (dedupStep digest) []) := by
  have hbase : DedupInv digest [] [] := by
    refine ⟨by simp, ?_, ?_⟩
    · intro k
      simp [lookupA, groupOf]
    · intro k it hl
      simp [lookupA] at hl
  have := dedup_fold_inv digest items [] [] hbase
  rwa [List.nil_append] at this

/-- C2: `deduplicate_items` groups surviving (non-noise) items by
identity key and outputs exactly one item per distinct surviving key —
output keys are distinct, and every surviving input item's key is
represented, so no item is ever excluded for lacking a date.  Each
output item is a member of its group re-tagged with the group key, its
date is the running minimum `minD` of the group's dates, and that
minimum is the earliest non-null date among the group's members (all
`none` when no member has a date). -/
theorem claim_C2_dedup_grouping (digest : String → String) (items : List Item)
    (sf : String) :
    ((deduplicate_items digest items sf).map Item.hash).Nodup
    ∧ (∀ it ∈ items, isNoise it = false →
        ∃ o ∈ deduplicate_items digest items sf, o.hash = hash_item digest it)
    ∧ (∀ o ∈ deduplicate_items digest items sf,
        (∃ m ∈ groupOf digest items o.hash, o = { m with hash := o.hash })
        ∧ o.date = minD ((groupOf digest items o.hash).map Item.date))
    ∧ (∀ o ∈ deduplicate_items digest items sf,
        (o.date = none → ∀ g ∈ groupOf digest items o.hash, g.date = none)
        ∧ (∀ d, o.date = some d →
            (∃ g ∈ groupOf digest items o.hash, g.date = some d)
            ∧ ∀ g ∈ groupOf digest items o.hash, ∀ e, g.date = some e → d ≤ e)) := by
  obtain ⟨hnd, hiff, hstore⟩ := dedup_inv_final digest items
  have hout : deduplicate_items digest items sf =
      (items.foldl (dedupStep digest) []).map Prod.snd := rfl
  have hkeys : ∀ p ∈ items.foldl (dedupStep digest) [], p.2.hash = p.1 := by
    intro p hp
    exact (hstore p.1 p.2 (lookupA_of_mem _ p hp hnd)).1
  have hfacts : ∀ o ∈ deduplicate_items digest items sf,
      o.hash ∈ (items.foldl (dedupStep digest) []).map Prod.fst
      ∧ (∃ m ∈ groupOf digest items o.hash, o = { m with hash := o.hash })
      ∧ o.date = minD ((groupOf digest items o.hash).map Item.date) := by
    intro o ho
    rw [hout] at ho
    obtain ⟨p, hp, hpo⟩ := List.mem_map.mp ho
    have hl := lookupA_of_mem _ p hp hnd
    obtain ⟨hh, hd, m0, hm0, hm0e⟩ := hstore p.1 p.2 hl
    have hohash : o.hash = p.1 := by rw [← hpo]; exact hh
    refine ⟨by rw [hohash]; exact List.mem_map.mpr ⟨p, hp, rfl⟩, ?_, ?_⟩
    · rw [hohash]
      exact ⟨m0, hm0, by rw [← hpo]; exact hm0e⟩
    · rw [hohash, ← hpo]
      exact hd
  refine ⟨?_, ?_, ?_, ?_⟩
  · rw [hout, List.map_map]
    have heq : (items.foldl (dedupStep digest) []).map (Item.hash ∘ Prod.snd) =
        (items.foldl (dedupStep digest) []).map Prod.fst :=
      List.map_congr_left (fun p hp => hkeys p hp)
    rw [heq]
    exact hnd
  · intro it hit hn
    have hmem : it ∈ groupOf digest items (hash_item digest it) := by
      rw [groupOf]
      refine List.mem_filter.mpr ⟨hit, ?_⟩
      simp [hn]
    have hne : groupOf digest items (hash_item digest it) ≠ [] :=
      List.ne_nil_of_mem hmem
    have hsome := (hiff (hash_item digest it)).mpr hne
    obtain ⟨o, hl⟩ := Option.isSome_iff_exists.mp hsome
    refine ⟨o, ?_, (hstore _ o hl).1⟩
    rw [hout]
    exact lookupA_mem_values _ _ o hl
  · intro o ho
    exact (hfacts o ho).2
  · intro o ho
    obtain ⟨_, _, hdate⟩ := hfacts o ho
    constructor
    · intro hnone g hg
      rw [hnone] at hdate
      have hall := foldl_minD_none _ _ hdate.symm
      exact hall.2 g.date (List.mem_map.mpr ⟨g, hg, rfl⟩)
    · intro d hd
      rw [hd] at hdate
      obtain ⟨hattain, hbound, _⟩ := foldl_minD_some _ _ _ hdate.symm
      constructor
      · rcases hattain with hm | hm
        · obtain ⟨g, hg, hge⟩ := List.mem_map.mp hm
          exact ⟨g, hg, hge.symm ▸ rfl⟩
        · cases hm
      · intro g hg e hge
        exact hbound e (List.mem_map.mpr ⟨g, hg, hge⟩)

/-- Witness for C2 at a concrete two-item run with one shared key. -/
theorem claim_C2_dedup_grouping_witness :
    ∃ o ∈ deduplicate_items id
      [mkItem "X" "k" (some 5) [], mkItem "Y" "k" (some 3) []] "sf",
      o.hash = hash_item id (mkItem "X" "k" (some 5) []) :=
  (claim_C2_dedup_grouping id
    [mkItem "X" "k" (some 5) [], mkItem "Y" "k" (some 3) []] "sf").2.1
    (mkItem "X" "k" (some 5) []) (by decide) (by decide)

end Enews
